import Mathlib

/-!
Shallow embedding of the KotoSub segment pipeline
(`app/processors/translation.py`, `app/processors/subtitles.py`,
`app/processors/diarization.py`).

Conventions of the embedding:
* Python floats (segment times) are modelled as exact rationals `ℚ`.
* Python strings are Lean `String`s; the character-level work is done on
  `List Char`.  Python's `str.strip`, regex `\s` and `\w` are modelled at
  ASCII level (`pySpace`, `wordChar`), and regex `IGNORECASE` is modelled
  as ASCII case-insensitivity; the repository only feeds these functions
  model output and subtitle text, and no claim hinges on non-ASCII casing.
* Python dicts for segments are modelled by the structure `Segment`;
  optional values (`None`) are `Option`.  Every segment constructed by the
  repository carries an explicit `speaker` key (`transcription.py` sets
  `"speaker": None`), so `None` — not a missing key — is how "unset" is
  represented; `original` is `Option String` because transcript segments
  lack the key until `translate` sets it (`dict.get` defaults are modelled
  with `Option.getD`).
* The completion collaborator (`_get_completion` and its callers) is
  modelled by outcome oracles: per attempt for the retry loop, per segment
  index for the thread-pool stages.  The thread pool itself is modelled by
  executing the per-index writes in an arbitrary completion order over the
  pre-sized `results` buffer (`runIndexed`).
-/

set_option maxRecDepth 16000
set_option maxHeartbeats 1000000

namespace KotoSub

/-- ASCII model of Python whitespace (default of `str.strip`, regex `\s`). -/
def pySpace (c : Char) : Bool :=
  c = ' ' || c = '\t' || c = '\n' || c = '\r' || c = '\x0b' || c = '\x0c'

/-- ASCII model of regex word characters `\w`. -/
def wordChar (c : Char) : Bool :=
  c.isAlphanum || c = '_'

/-- ASCII uppercase of a lowercase letter, other characters unchanged. -/
def upperA (c : Char) : Char :=
  if 'a' ≤ c && c ≤ 'z' then Char.ofNat (c.toNat - 32) else c

/-- ASCII lowercase, modelling Python `str.lower` on the ASCII range. -/
def lowerA (c : Char) : Char :=
  if 'A' ≤ c && c ≤ 'Z' then Char.ofNat (c.toNat + 32) else c

/-- Python `str.lstrip()` on characters. -/
def lstrip (l : List Char) : List Char := l.dropWhile pySpace

/-- Python `str.strip()` on characters: drop whitespace at both ends. -/
def pyStrip (l : List Char) : List Char :=
  ((lstrip l).reverse.dropWhile pySpace).reverse

/-- Python `str.strip()` on strings. -/
def pyStripS (s : String) : String := ⟨pyStrip s.data⟩

/-- Case-insensitive (ASCII) match of a lowercase pattern against a prefix
of the input, modelling `re.IGNORECASE` matching of a literal word. -/
def matchCI : List Char → List Char → Bool
  | [], _ => true
  | _ :: _, [] => false
  | p :: ps, c :: cs => (c = p || c = upperA p) && matchCI ps cs

/-- Try the alternatives of a regex label group `(kw1|kw2|…):` in order at
the start of the input (the regex alternation is ordered); on a match,
return the input with `kw` and the `:` removed. -/
def matchLabel : List (List Char) → List Char → Option (List Char)
  | [], _ => none
  | kw :: kws, s =>
    if matchCI (kw ++ [':']) s then some (s.drop (kw.length + 1))
    else matchLabel kws s

/-- The label words of the first cleaning pattern
`^(Translation|Translated|Result|English|Output):\s*` (lowercased). -/
def kws1 : List (List Char) :=
  ["translation".data, "translated".data, "result".data, "english".data,
   "output".data]

/-- The label words of the second cleaning pattern
`^(Orig|Original|Src|Source):…` (lowercased, in the regex's order). -/
def kws2 : List (List Char) :=
  ["orig".data, "original".data, "src".data, "source".data]

/-- Lookahead `(?=(Translation|Translated|Result|English|Output|$))` of the
second cleaning pattern: a keyword starts here, or `$` holds (end of the
string, or just before a terminating newline). -/
def laKw (t : List Char) : Bool :=
  kws1.any (fun kw => matchCI kw t) || t = ['\n']

/-- Advance to the first position where the lookahead `laKw` holds — the
extent of the non-greedy `.*?` (with `re.DOTALL`) of the second pattern.
The end of the string always qualifies. -/
def dropToKw : List Char → List Char
  | [] => []
  | c :: rest => if laKw (c :: rest) then c :: rest else dropToKw rest

/-- `re.sub` of `^(Translation|Translated|Result|English|Output):\s*`:
with no `re.MULTILINE`, `^` anchors to the start of the string only, so at
most one (leading) match is removed; the greedy `\s*` eats all whitespace
after the colon. -/
def sub1 (s : List Char) : List Char :=
  match matchLabel kws1 s with
  | some r => r.dropWhile pySpace
  | none => s

/-- `re.sub` of
`^(Orig|Original|Src|Source):\s*.*?(?=(Translation|Translated|Result|English|Output|$))`
(IGNORECASE, DOTALL): drop the label, the whitespace after the colon, and
everything up to the first lookahead position. -/
def sub2 (s : List Char) : List Char :=
  match matchLabel kws2 s with
  | some r => dropToKw (r.dropWhile pySpace)
  | none => s

/-- Substring test, modelling Python's `needle in haystack` (the needles
used here are nonempty). -/
def containsSub (pat : List Char) : List Char → Bool
  | [] => pat.isEmpty
  | c :: rest => pat.isPrefixOf (c :: rest) || containsSub pat rest

/-- A line that "looks like a label line": its lowercase form contains
`orig:`, `source:` or `original:`. -/
def isLabelLine (l : List Char) : Bool :=
  containsSub "orig:".data (l.map lowerA) ||
  containsSub "source:".data (l.map lowerA) ||
  containsSub "original:".data (l.map lowerA)

/-- Python `str.split(sep)` for a one-character separator (keeps empty
chunks; `"".split(sep) == [""]`). -/
def splitOnChar (sep : Char) : List Char → List (List Char)
  | [] => [[]]
  | c :: rest =>
    if c = sep then [] :: splitOnChar sep rest
    else
      match splitOnChar sep rest with
      | [] => [[c]]
      | w :: ws => (c :: w) :: ws

/-- Python `sep.join(words)` on character lists. -/
def joinSep (sep : List Char) : List (List Char) → List Char
  | [] => []
  | [w] => w
  | w :: w' :: ws => w ++ sep ++ joinSep sep (w' :: ws)

/-- The multi-line collapse step of `_clean_translation`: if the text has a
newline, keep only the stripped nonempty lines that do not look like label
lines and join them with single spaces (only when there are at least two
lines and at least one surviving line). -/
def step4 (s : List Char) : List Char :=
  if s.contains '\n' then
    let lines := ((splitOnChar '\n' s).map pyStrip).filter (fun l => l ≠ [])
    if 1 < lines.length then
      let trans := lines.filter (fun l => !(isLabelLine l))
      if trans ≠ [] then joinSep [' '] trans else s
    else s
  else s

/-- `re.sub(r"^\w+:\s*", "", ·)`: remove a leading run of word characters
directly followed by `:` and the whitespace after it.  (`\w+` is greedy and
`:` is not a word character, so only the maximal run can match.) -/
def step5 (s : List Char) : List Char :=
  let run := s.takeWhile wordChar
  if run ≠ [] then
    match s.drop run.length with
    | c :: rest => if c = ':' then rest.dropWhile pySpace else s
    | [] => s
  else s

/-- `TranslationService._clean_translation` on characters, composing the
steps exactly as the source does: strip, pattern 1 + strip, pattern 2 +
strip, the newline collapse, final label sub + strip.  (The source's
`source_text` parameter is unused in its body and therefore omitted.) -/
def cleanL (s : List Char) : List Char :=
  pyStrip (step5 (step4 (pyStrip (sub2 (pyStrip (sub1 (pyStrip s)))))))

/-- `TranslationService._clean_translation` on strings. -/
def _clean_translation (s : String) : String := ⟨cleanL s.data⟩

/-- A pipeline segment (the dicts flowing between the stages).  The source
key `end` is renamed `endTime` (`end` is a Lean keyword). -/
structure Segment where
  start : ℚ
  endTime : ℚ
  text : String
  original : Option String
  speaker : Option String
deriving DecidableEq, Repr, Inhabited

/-- A diarization span `{start, end, speaker}` as produced by
`DiarizationService.diarize`. -/
structure DiarizationSpan where
  start : ℚ
  endTime : ℚ
  speaker : String
deriving DecidableEq, Repr, Inhabited

/-- Python truthiness of an optional string (`None` and `""` are falsy). -/
def truthy : Option String → Bool
  | none => false
  | some s => s ≠ ""

/-- Outcome of one call to the completion collaborator inside the retry
loop: a returned (already `.strip()`ed) text, or an exception whose string
form does or does not look like a rate limit (`"429"`/`"rate_limit"`). -/
inductive CallOutcome where
  | ok (text : String)
  | err (rateLimited : Bool)
deriving DecidableEq, Repr

/-- `max_retries = 5` in `_get_completion`. -/
def maxRetries : ℕ := 5

/-- `base_delay = 2` in `_get_completion`. -/
def baseDelay : ℚ := 2

/-- The retry loop of `_get_completion` (API branch), with the call
outcomes and the `random.uniform(0, 1)` jitter supplied as oracles indexed
by attempt number.  Returns the final result (`none` models the final
re-raise), the number of completion attempts performed, and the backoff
sleeps in order: attempt `i` sleeps `base_delay ** i + jitter i`, doubled
on a rate-limit failure, and the last attempt re-raises without sleeping. -/
def getCompletionLoop (compl : ℕ → CallOutcome) (jitter : ℕ → ℚ) :
    ℕ → ℕ → Option String × ℕ × List ℚ
  | _, 0 => (none, 0, [])
  | attempt, remaining + 1 =>
    match compl attempt with
    | .ok t => (some t, 1, [])
    | .err rl =>
      if remaining = 0 then (none, 1, [])
      else
        let d := baseDelay ^ attempt + jitter attempt
        let d := if rl then 2 * d else d
        let r := getCompletionLoop compl jitter (attempt + 1) remaining
        (r.1, r.2.1 + 1, d :: r.2.2)

/-- `TranslationService._get_completion` for an API provider: run the retry
loop from attempt `0` with `max_retries` attempts available. -/
def _get_completion (compl : ℕ → CallOutcome) (jitter : ℕ → ℚ) :
    Option String × ℕ × List ℚ :=
  getCompletionLoop compl jitter 0 maxRetries

/-- The speaker-echo stripping inside `translate_single`: if the model
echoed the leading `[speaker]` tag, drop it (and a following `:`). -/
def stripSpeakerEcho (sp : String) (t : String) : String :=
  let tag := "[" ++ sp ++ "]"
  if tag.isPrefixOf t then
    let r := pyStripS (t.drop tag.length)
    if ":".isPrefixOf r then pyStripS (r.drop 1) else r
  else t

/-- `translate_single` from `TranslationService.translate`, with the
completion call's terminal outcome supplied as `result` (`some raw` — the
call chain returned `raw`; `none` — it raised, i.e. retries were
exhausted).  Both branches build the output dict from the originating
segment; the `except` branch marks the text with `"[Error] "`. -/
def translate_single (result : Option String) (segment : Segment) : Segment :=
  let text := segment.text
  let speaker := segment.speaker
  match result with
  | some raw =>
    let translation := _clean_translation raw
    let translation :=
      match speaker with
      | some sp => if sp = "" then translation else stripSpeakerEcho sp translation
      | none => translation
    let translation := _clean_translation translation
    { start := segment.start, endTime := segment.endTime, text := translation,
      original := some text, speaker := speaker }
  | none =>
    { start := segment.start, endTime := segment.endTime,
      text := "[Error] " ++ text, original := some text, speaker := speaker }

/-- The thread-pool execution shared by `translate` and `quality_check`:
a results buffer `[None] * n` is pre-sized, each job writes the segment
computed for its originating index `i` at position `i` (in whatever order
the jobs complete, given by `order`), and at the end the non-`None`
entries are collected (`[r for r in results if r is not None]`). -/
def runIndexed (f : ℕ → Segment) (n : ℕ) (order : List ℕ) : List Segment :=
  (order.foldl (fun buf i => buf.set i (some (f i)))
    (List.replicate n (none : Option Segment))).filterMap id

/-- `TranslationService.translate` with an explicit completion order of the
per-segment jobs. -/
def translateExec (oracle : ℕ → Option String) (segments : List Segment)
    (order : List ℕ) : List Segment :=
  runIndexed (fun i => translate_single (oracle i) segments[i]!)
    segments.length order

/-- `TranslationService.translate`: every index is processed exactly once
(the canonical submission order stands in for any completion order — see
`translate_order_irrelevant`). -/
def translate (oracle : ℕ → Option String) (segments : List Segment) :
    List Segment :=
  translateExec oracle segments (List.range segments.length)

/-- `qa_single` from `TranslationService.quality_check`: on success, copy
the segment and replace only `text` by the cleaned model output; on any
call failure, fall back to the unrefined segment. -/
def qa_single (result : Option String) (segment : Segment) : Segment :=
  match result with
  | some raw => { segment with text := _clean_translation raw }
  | none => segment

/-- `TranslationService.quality_check` with an explicit completion order. -/
def qcExec (oracle : ℕ → Option String) (segments : List Segment)
    (order : List ℕ) : List Segment :=
  runIndexed (fun i => qa_single (oracle i) segments[i]!) segments.length order

/-- `TranslationService.quality_check`. -/
def quality_check (oracle : ℕ → Option String) (segments : List Segment) :
    List Segment :=
  qcExec oracle segments (List.range segments.length)

/-- The body of the `for t_seg in transcript_segments` loop of
`DiarizationService.assign_speakers`: compute the midpoint and take the
speaker of the first span (in list order — the inner loop `break`s) whose
inclusive `[start, end]` range contains it; keep the current speaker value
if no span matches. -/
def assignOne (diarization_segments : List DiarizationSpan)
    (t : Segment) : Segment :=
  let mid := (t.start + t.endTime) / 2
  match diarization_segments.find?
      (fun d => decide (d.start ≤ mid) && decide (mid ≤ d.endTime)) with
  | some d => { t with speaker := some d.speaker }
  | none => t

/-- `DiarizationService.assign_speakers`: empty span list is a no-op;
otherwise every transcript segment is processed by the loop body. -/
def assign_speakers (transcript_segments : List Segment)
    (diarization_segments : List DiarizationSpan) : List Segment :=
  if diarization_segments = [] then transcript_segments
  else transcript_segments.map (assignOne diarization_segments)

/-- Python `int(q)` on a float modelled as a rational: truncation toward
zero. -/
def pyInt (q : ℚ) : ℤ :=
  if q < 0 then -⌊-q⌋ else ⌊q⌋

/-- Python float floor division `a // b`. -/
def pyFloorDiv (a b : ℚ) : ℚ := (⌊a / b⌋ : ℤ)

/-- Python float modulo `a % b` (result has the divisor's sign; for the
positive divisors used here it lies in `[0, b)`). -/
def pyMod (a b : ℚ) : ℚ := a - b * (⌊a / b⌋ : ℤ)

/-- `SubtitleGenerator._seconds_to_subriptime`: the
`(hours, minutes, seconds, milliseconds)` passed to `pysrt.SubRipTime`,
each computed with Python `int(...)` truncation:
`int(s // 3600)`, `int((s % 3600) // 60)`, `int(s % 60)`,
`int((s - int(s)) * 1000)`. -/
def _seconds_to_subriptime (seconds : ℚ) : ℤ × ℤ × ℤ × ℤ :=
  (pyInt (pyFloorDiv seconds 3600),
   pyInt (pyFloorDiv (pyMod seconds 3600) 60),
   pyInt (pyMod seconds 60),
   pyInt ((seconds - (pyInt seconds : ℚ)) * 1000))

/-- Zero-pad the decimal form of a (nonnegative) integer to a width. -/
def padNum (width : ℕ) (n : ℤ) : String :=
  let s := toString n
  ⟨List.replicate (width - s.length) '0'⟩ ++ s

/-- The `HH:MM:SS,mmm` rendering of a `pysrt.SubRipTime` (pysrt is a
third-party collaborator; its fixed timecode format is modelled as the
spec states it, with the fields zero-padded to 2/2/2/3 digits). -/
def subripTimeText (t : ℤ × ℤ × ℤ × ℤ) : String :=
  padNum 2 t.1 ++ ":" ++ padNum 2 t.2.1 ++ ":" ++ padNum 2 t.2.2.1 ++ "," ++
    padNum 3 t.2.2.2

/-- One `pysrt.SubRipItem` as `str(item)` renders it: index line,
`start --> end` line, text and a terminating newline; the speaker is
prepended as `[speaker]: ` when truthy (`if seg.get('speaker'):`). -/
def srtItemText (index : ℕ) (seg : Segment) : String :=
  let text :=
    match seg.speaker with
    | some sp => if sp = "" then seg.text else "[" ++ sp ++ "]: " ++ seg.text
    | none => seg.text
  toString index ++ "\n" ++
    subripTimeText (_seconds_to_subriptime seg.start) ++ " --> " ++
    subripTimeText (_seconds_to_subriptime seg.endTime) ++ "\n" ++ text ++ "\n"

/-- `SubtitleGenerator.generate_srt`: enumerate the segments with 1-based
indices and join the rendered items with `"\n"`. -/
def generate_srt (segments : List Segment) : String :=
  String.intercalate "\n"
    ((List.range segments.length).map (fun i => srtItemText (i + 1) segments[i]!))

/-- The body of the `for seg in segments` loop of
`SubtitleGenerator.refine_segments`: trim the text; when the duration is
positive, the characters-per-second of the trimmed text exceed `max_cps`
and the text contains a space, split at the word-count midpoint
(`len(words) // 2`) with the split time proportional to the character
length of the first half over the trimmed text length; otherwise keep the
segment with the trimmed text. -/
def refineOne (max_cps : ℚ) (seg : Segment) : List Segment :=
  let text := pyStrip seg.text.data
  let duration := seg.endTime - seg.start
  if 0 < duration ∧ max_cps < (text.length : ℚ) / duration ∧ ' ' ∈ text then
    let words := splitOnChar ' ' text
    let midpoint := words.length / 2
    let text1 := joinSep [' '] (words.take midpoint)
    let text2 := joinSep [' '] (words.drop midpoint)
    let split_time :=
      seg.start + duration * ((text1.length : ℚ) / (text.length : ℚ))
    [⟨seg.start, split_time, ⟨text1⟩, some (seg.original.getD ""), seg.speaker⟩,
     ⟨split_time, seg.endTime, ⟨text2⟩, some (seg.original.getD ""), seg.speaker⟩]
  else
    [{ seg with text := ⟨text⟩ }]

/-- `SubtitleGenerator.refine_segments`: the per-segment results appended
in order (an empty input yields `[]`). -/
def refine_segments (segments : List Segment) (max_cps : ℚ := 20) :
    List Segment :=
  segments.flatMap (refineOne max_cps)

/-- Python `text.replace('\n', '\\N')` character by character (the needle
is the single newline character). -/
def replaceNl : List Char → List Char
  | [] => []
  | c :: rest =>
    if c = '\n' then '\\' :: 'N' :: replaceNl rest else c :: replaceNl rest

/-- The fixed ASS header emitted by `generate_ass`. -/
def assHeader : String :=
  "[Script Info]\nScriptType: v4.00+\nPlayResX: 384\nPlayResY: 288\n\n[V4+ Styles]\nFormat: Name, Fontname, Fontsize, PrimaryColour, SecondaryColour, OutlineColour, BackColour, Bold, Italic, Underline, StrikeOut, ScaleX, ScaleY, Spacing, Angle, BorderStyle, Outline, Shadow, Alignment, MarginL, MarginR, MarginV, Encoding\nStyle: Default,Arial,20,&H00FFFFFF,&H000000FF,&H00000000,&H00000000,0,0,0,0,100,100,0,0,1,2,2,2,10,10,10,1\n\n[Events]\nFormat: Layer, Start, End, Style, Name, MarginL, MarginR, MarginV, Effect, Text\n"

/-- `SubtitleGenerator._seconds_to_ass_time`: `f"{hours}:{minutes:02d}:{secs:05.2f}"`
with `secs = seconds % 60`; the `%.2f` rounding to centiseconds is
modelled by rounding the exact rational to the nearest integer number of
centiseconds. -/
def _seconds_to_ass_time (seconds : ℚ) : String :=
  let hours := pyInt (pyFloorDiv seconds 3600)
  let minutes := pyInt (pyFloorDiv (pyMod seconds 3600) 60)
  let cs := round (pyMod seconds 60 * 100)
  toString hours ++ ":" ++ padNum 2 minutes ++ ":" ++ padNum 2 (cs / 100) ++
    "." ++ padNum 2 (cs % 100)

/-- `SubtitleGenerator.generate_ass`: the fixed header followed by one
`Dialogue:` line per segment.  The Name field is
`str(seg.get('speaker', 'Default'))`; every segment dict in this
repository carries the `speaker` key (the transcription stage stores
`"speaker": None`), so for an unset speaker the `get` default never fires
and Python renders `str(None)`, i.e. the literal `"None"`. -/
def generate_ass (segments : List Segment) : String :=
  assHeader ++ String.intercalate "\n" (segments.map (fun seg =>
    let startT := _seconds_to_ass_time seg.start
    let endT := _seconds_to_ass_time seg.endTime
    let text : String := ⟨replaceNl seg.text.data⟩
    let speaker :=
      match seg.speaker with
      | some sp => sp
      | none => "None"
    "Dialogue: 0," ++ startT ++ "," ++ endT ++ ",Default," ++ speaker ++
      ",0,0,0,," ++ text))

/-- The text begins with a regex `\w+:` label: a nonempty run of word
characters directly followed by a colon (the guard of `step5`). -/
def labelAtStart (s : List Char) : Bool :=
  let run := s.takeWhile wordChar
  !run.isEmpty &&
    (match s.drop run.length with
     | c :: _ => c = ':'
     | [] => false)

/-- `labelAtStart` on strings. -/
def labelAtStartS (s : String) : Bool := labelAtStart s.data

/-! ## General lemmas about the thread-pool results buffer -/

theorem foldlSet_getElem? (f : ℕ → Segment) (order : List ℕ)
    (buf : List (Option Segment)) (j : ℕ) :
    (order.foldl (fun b i => b.set i (some (f i))) buf)[j]? =
      if j ∈ order ∧ j < buf.length then some (some (f j)) else buf[j]? := by
  induction order generalizing buf with
  | nil => simp
  | cons i rest ih =>
    rw [List.foldl_cons, ih]
    simp only [List.length_set, List.getElem?_set, List.mem_cons]
    by_cases hj : j ∈ rest
    · by_cases hlt : j < buf.length
      · simp [hj, hlt]
      · have hb : buf[j]? = none := List.getElem?_eq_none (by omega)
        by_cases hij : i = j
        · subst hij
          simp [hj, hlt, hb]
        · simp [hj, hij, hlt, hb]
    · by_cases hij : i = j
      · subst hij
        by_cases hlt : i < buf.length
        · simp [hj, hlt]
        · simp [hj, hlt, List.getElem?_eq_none_iff]
          omega
      · simp [hj, hij, Ne.symm hij]

theorem runIndexed_eq_map (f : ℕ → Segment) (n : ℕ) (order : List ℕ)
    (h : order.Perm (List.range n)) :
    runIndexed f n order = (List.range n).map f := by
  unfold runIndexed
  have hbuf : order.foldl (fun b i => b.set i (some (f i)))
      (List.replicate n (none : Option Segment)) =
      (List.range n).map (fun i => some (f i)) := by
    apply List.ext_getElem?
    intro j
    rw [foldlSet_getElem?]
    have hmem : j ∈ order ↔ j < n := by rw [h.mem_iff, List.mem_range]
    by_cases hj : j < n
    · simp [hmem, hj, List.getElem?_range hj]
    · have hr : (List.range n)[j]? = none := by
        rw [List.getElem?_eq_none_iff, List.length_range]
        omega
      simp [hmem, hj, hr, List.getElem?_map, List.getElem?_replicate]
  rw [hbuf, List.filterMap_map]
  exact List.filterMap_eq_map f ▸ rfl

theorem getElem!_map_range (f : ℕ → Segment) (n i : ℕ) (hi : i < n) :
    ((List.range n).map f)[i]! = f i := by
  rw [getElem!_pos _ _ (by simpa using hi)]
  simp

theorem translate_single_fields (r : Option String) (s : Segment) :
    (translate_single r s).start = s.start ∧
    (translate_single r s).endTime = s.endTime ∧
    (translate_single r s).original = some s.text ∧
    (translate_single r s).speaker = s.speaker := by
  cases r <;> simp [translate_single]

/-! ## C1 -/

/-- C1: `translate` returns exactly one output segment per input segment,
in input order: for any completion order of the per-segment jobs (any
permutation of the index range), the execution equals the canonical one;
the output length equals the input length; and the `i`-th output is built
from the `i`-th input (same `start`, `end`, `speaker`, and `original` set
from its pre-translation text) — results are written into the pre-sized
buffer at the originating index, never appended in completion order. -/
theorem translate_order_preserved (oracle : ℕ → Option String)
    (segments : List Segment) (order : List ℕ)
    (h : order.Perm (List.range segments.length)) :
    translateExec oracle segments order = translate oracle segments ∧
    (translate oracle segments).length = segments.length ∧
    ∀ i, i < segments.length →
      (translate oracle segments)[i]! =
        translate_single (oracle i) segments[i]! ∧
      ((translate oracle segments)[i]!).start = (segments[i]!).start ∧
      ((translate oracle segments)[i]!).endTime = (segments[i]!).endTime ∧
      ((translate oracle segments)[i]!).original = some (segments[i]!).text ∧
      ((translate oracle segments)[i]!).speaker = (segments[i]!).speaker := by
  have key : translate oracle segments =
      (List.range segments.length).map
        (fun i => translate_single (oracle i) segments[i]!) :=
    runIndexed_eq_map _ _ _ (List.Perm.refl _)
  refine ⟨?_, ?_, ?_⟩
  · unfold translate translateExec
    rw [runIndexed_eq_map _ _ _ h]
    exact (runIndexed_eq_map _ _ _ (List.Perm.refl _)).symm
  · rw [key]
    simp
  · intro i hi
    have hidx : (translate oracle segments)[i]! =
        translate_single (oracle i) segments[i]! := by
      rw [key, getElem!_map_range _ _ _ hi]
    refine ⟨hidx, ?_, ?_, ?_, ?_⟩ <;> rw [hidx]
    · exact (translate_single_fields _ _).1
    · exact (translate_single_fields _ _).2.1
    · exact (translate_single_fields _ _).2.2.1
    · exact (translate_single_fields _ _).2.2.2

/-- Witness for C1 at a concrete input: two segments, the jobs completing
in reversed order. -/
theorem translate_order_preserved_witness :
    ([1, 0] : List ℕ).Perm (List.range 2) ∧
    translateExec (fun i => if i = 0 then some "Bonjour" else none)
        [⟨0, 1, "Hello", none, some "S1"⟩, ⟨1, 2, "World", none, none⟩]
        [1, 0] =
      translate (fun i => if i = 0 then some "Bonjour" else none)
        [⟨0, 1, "Hello", none, some "S1"⟩, ⟨1, 2, "World", none, none⟩] :=
  ⟨by decide,
    (translate_order_preserved _ _ _ (by decide)).1⟩

/-! ## C2 -/

/-- C2: when the completion call for segment `i` terminally fails, the
`i`-th output keeps the batch alive — its text is exactly `"[Error] "`
followed by the pre-translation text, `original` is still recorded as that
text, the output count equals the input count, and every sibling output is
unaffected by the failure (it only depends on that sibling's own
outcome). -/
theorem translate_error_marker (oracle oracle' : ℕ → Option String)
    (segments : List Segment) (i : ℕ) (hi : i < segments.length)
    (hfail : oracle i = none)
    (hagree : ∀ j, j ≠ i → oracle j = oracle' j) :
    (translate oracle segments).length = segments.length ∧
    ((translate oracle segments)[i]!).text = "[Error] " ++ (segments[i]!).text ∧
    ((translate oracle segments)[i]!).original = some (segments[i]!).text ∧
    ∀ j, j ≠ i → j < segments.length →
      (translate oracle segments)[j]! = (translate oracle' segments)[j]! := by
  have key : ∀ (o : ℕ → Option String), translate o segments =
      (List.range segments.length).map
        (fun k => translate_single (o k) segments[k]!) :=
    fun o => runIndexed_eq_map _ _ _ (List.Perm.refl _)
  have hidx : ∀ (o : ℕ → Option String) (j : ℕ), j < segments.length →
      (translate o segments)[j]! = translate_single (o j) segments[j]! := by
    intro o j hj
    rw [key o, getElem!_map_range _ _ _ hj]
  refine ⟨by rw [key oracle]; simp, ?_, ?_, ?_⟩
  · rw [hidx oracle i hi, hfail]
    rfl
  · rw [hidx oracle i hi, hfail]
    rfl
  · intro j hji hj
    rw [hidx oracle j hj, hidx oracle' j hj, hagree j hji]

/-- Witness for C2: the second of three segments fails terminally; the
sibling oracle differs at the failing index only. -/
theorem translate_error_marker_witness :
    (1 : ℕ) < 2 ∧
    (fun i => if i = 0 then some "Bonjour" else none) (1 : ℕ) = none ∧
    (translate (fun i => if i = 0 then some "Bonjour" else none)
        [⟨0, 1, "Hello", none, none⟩, ⟨1, 2, "World", none, none⟩]).length = 2 ∧
    ((translate (fun i => if i = 0 then some "Bonjour" else none)
        [⟨0, 1, "Hello", none, none⟩, ⟨1, 2, "World", none, none⟩])[1]!).text =
      "[Error] " ++ "World" := by
  have h := translate_error_marker
    (fun i => if i = 0 then some "Bonjour" else none)
    (fun i => if i = 0 then some "Bonjour" else none)
    [⟨0, 1, "Hello", none, none⟩, ⟨1, 2, "World", none, none⟩] 1
    (by decide) (by decide) (fun j _ => rfl)
  exact ⟨by decide, by decide, h.1, h.2.1⟩

/-! ## C7 -/

/-- C7: the quality-check pass returns one segment per input segment, the
`i`-th output preserves the `i`-th input's `start`, `end`, `speaker` and
`original` (so `original` is never overwritten), and when the completion
call for segment `i` fails its text is left exactly as it was. -/
theorem quality_check_frame (oracle : ℕ → Option String)
    (segments : List Segment) (i : ℕ) (hi : i < segments.length) :
    (quality_check oracle segments).length = segments.length ∧
    ((quality_check oracle segments)[i]!).start = (segments[i]!).start ∧
    ((quality_check oracle segments)[i]!).endTime = (segments[i]!).endTime ∧
    ((quality_check oracle segments)[i]!).speaker = (segments[i]!).speaker ∧
    ((quality_check oracle segments)[i]!).original = (segments[i]!).original ∧
    (oracle i = none →
      ((quality_check oracle segments)[i]!).text = (segments[i]!).text) := by
  have key : quality_check oracle segments =
      (List.range segments.length).map
        (fun k => qa_single (oracle k) segments[k]!) :=
    runIndexed_eq_map _ _ _ (List.Perm.refl _)
  have hidx : (quality_check oracle segments)[i]! =
      qa_single (oracle i) segments[i]! := by
    rw [key, getElem!_map_range _ _ _ hi]
  have hfields : ∀ (r : Option String) (s : Segment),
      (qa_single r s).start = s.start ∧ (qa_single r s).endTime = s.endTime ∧
      (qa_single r s).speaker = s.speaker ∧
      (qa_single r s).original = s.original := by
    intro r s
    cases r <;> simp [qa_single]
  refine ⟨by rw [key]; simp, ?_, ?_, ?_, ?_, ?_⟩
  · rw [hidx]; exact (hfields _ _).1
  · rw [hidx]; exact (hfields _ _).2.1
  · rw [hidx]; exact (hfields _ _).2.2.1
  · rw [hidx]; exact (hfields _ _).2.2.2
  · intro hfail
    rw [hidx, hfail]
    rfl

/-- Witness for C7 at a concrete input: one verified segment whose
completion call fails. -/
theorem quality_check_frame_witness :
    (0 : ℕ) < 1 ∧
    ((quality_check (fun _ => none)
        [⟨0, 1, "Bonjour", some "Hello", some "S"⟩])[0]!).original =
      some "Hello" ∧
    ((quality_check (fun _ => none)
        [⟨0, 1, "Bonjour", some "Hello", some "S"⟩])[0]!).text = "Bonjour" := by
  have h := quality_check_frame (fun _ => none)
    [⟨0, 1, "Bonjour", some "Hello", some "S"⟩] 0 (by decide)
  exact ⟨by decide, h.2.2.2.2.1, h.2.2.2.2.2 rfl⟩

/-! ## C3 -/

/-- C3: with a completion collaborator that fails on every call,
`_get_completion` performs exactly `maxRetries = 5` attempts — never more,
never fewer; attempt `i` (0-indexed, for `i = 0..3`) sleeps
`baseDelay ^ i + jitter i` before the next attempt, doubled when the
failure signature indicates a rate limit; the fifth attempt re-raises, and
`translate_single` then returns the segment with the `"[Error] "` marker. -/
theorem retry_bound (compl : ℕ → CallOutcome) (jitter : ℕ → ℚ)
    (rl : ℕ → Bool) (hfail : ∀ a, compl a = .err (rl a)) (seg : Segment) :
    _get_completion compl jitter =
      (none, maxRetries,
        (List.range (maxRetries - 1)).map (fun i =>
          if rl i then 2 * (baseDelay ^ i + jitter i)
          else baseDelay ^ i + jitter i)) ∧
    translate_single (_get_completion compl jitter).1 seg =
      ⟨seg.start, seg.endTime, "[Error] " ++ seg.text, some seg.text,
        seg.speaker⟩ := by
  have key : _get_completion compl jitter =
      (none, maxRetries,
        (List.range (maxRetries - 1)).map (fun i =>
          if rl i then 2 * (baseDelay ^ i + jitter i)
          else baseDelay ^ i + jitter i)) := by
    show getCompletionLoop compl jitter 0 maxRetries = _
    simp [maxRetries, show (5 : ℕ) = 4 + 1 by rfl, show (4 : ℕ) = 3 + 1 by rfl,
      show (3 : ℕ) = 2 + 1 by rfl, show (2 : ℕ) = 1 + 1 by rfl,
      getCompletionLoop, hfail 0, hfail 1, hfail 2, hfail 3, hfail 4,
      List.range_succ]
  refine ⟨key, ?_⟩
  rw [key]
  rfl

/-- Witness for C3: a concrete always-failing collaborator whose failures
are rate-limited from attempt 2 on, zero jitter: five attempts, sleeps
`[1, 2, 8, 16]`. -/
theorem retry_bound_witness :
    (∀ a, (fun n => CallOutcome.err (decide (2 ≤ n))) a =
      .err ((fun n => decide (2 ≤ n)) a)) ∧
    _get_completion (fun n => .err (decide (2 ≤ n))) (fun _ => 0) =
      (none, 5, [1, 2, 8, 16]) := by
  have h := retry_bound (fun n => .err (decide (2 ≤ n))) (fun _ => 0)
    (fun n => decide (2 ≤ n)) (fun a => rfl) (default : Segment)
  refine ⟨fun a => rfl, ?_⟩
  rw [h.1]
  norm_num [maxRetries, baseDelay, List.range_succ]

/-! ## C6 -/

theorem getElem!_map (g : Segment → Segment) (l : List Segment) (i : ℕ)
    (hi : i < l.length) : (l.map g)[i]! = g (l[i]!) := by
  rw [getElem!_pos (l.map g) i (by simpa using hi), getElem!_pos l i hi]
  simp

theorem find?_first {α : Type} (p : α → Bool) (l : List α) (j : ℕ)
    (hj : j < l.length) (hp : p l[j] = true)
    (hfirst : ∀ k (hk : k < l.length), k < j → p l[k] = false) :
    l.find? p = some l[j] := by
  induction l generalizing j with
  | nil => simp at hj
  | cons a t ih =>
    cases j with
    | zero =>
      simp only [List.getElem_cons_zero] at hp
      simp [List.find?_cons, hp]
    | succ k =>
      have ha : p a = false := by
        have := hfirst 0 (by simp) (Nat.succ_pos _)
        simpa using this
      rw [List.find?_cons, ha]
      simp only [List.getElem_cons_succ]
      exact ih k (by simpa using hj) (by simpa using hp)
        (fun m hm hmk => by
          have := hfirst (m + 1) (by simpa using Nat.succ_lt_succ hm)
            (Nat.succ_lt_succ hmk)
          simpa using this)

theorem assignOne_eq_match (ds : List DiarizationSpan) (t : Segment) :
    assignOne ds t =
      match ds.find? (fun d =>
          decide (d.start ≤ (t.start + t.endTime) / 2) &&
          decide ((t.start + t.endTime) / 2 ≤ d.endTime)) with
      | some d => { t with speaker := some d.speaker }
      | none => t := rfl

/-- C6: speaker assignment preserves the segment list's length and each
segment's `start`/`end`/`text`; segment `i` receives the speaker of the
first span (in list order) whose inclusive `[start, end]` range contains
its midpoint `(start + end) / 2`, and keeps its speaker value when no span
contains the midpoint. -/
theorem assign_speakers_first_match (ts : List Segment)
    (ds : List DiarizationSpan) (i : ℕ) (hi : i < ts.length) :
    (assign_speakers ts ds).length = ts.length ∧
    ((assign_speakers ts ds)[i]!).start = (ts[i]!).start ∧
    ((assign_speakers ts ds)[i]!).endTime = (ts[i]!).endTime ∧
    ((assign_speakers ts ds)[i]!).text = (ts[i]!).text ∧
    (∀ j, j < ds.length →
      ((ds[j]!).start ≤ ((ts[i]!).start + (ts[i]!).endTime) / 2 ∧
        ((ts[i]!).start + (ts[i]!).endTime) / 2 ≤ (ds[j]!).endTime) →
      (∀ k, k < j →
        ¬((ds[k]!).start ≤ ((ts[i]!).start + (ts[i]!).endTime) / 2 ∧
          ((ts[i]!).start + (ts[i]!).endTime) / 2 ≤ (ds[k]!).endTime)) →
      ((assign_speakers ts ds)[i]!).speaker = some (ds[j]!).speaker) ∧
    ((∀ j, j < ds.length →
      ¬((ds[j]!).start ≤ ((ts[i]!).start + (ts[i]!).endTime) / 2 ∧
        ((ts[i]!).start + (ts[i]!).endTime) / 2 ≤ (ds[j]!).endTime)) →
      ((assign_speakers ts ds)[i]!).speaker = (ts[i]!).speaker) := by
  by_cases hds : ds = []
  · subst hds
    refine ⟨by simp [assign_speakers], by simp [assign_speakers],
      by simp [assign_speakers], by simp [assign_speakers],
      fun j hj => by simp at hj, fun _ => by simp [assign_speakers]⟩
  · have hmap : assign_speakers ts ds = ts.map (assignOne ds) := by
      simp [assign_speakers, hds]
    have hidx : (assign_speakers ts ds)[i]! = assignOne ds (ts[i]!) := by
      rw [hmap, getElem!_map (assignOne ds) ts i hi]
    refine ⟨by rw [hmap]; simp, ?_, ?_, ?_, ?_, ?_⟩
    · rw [hidx, assignOne_eq_match]
      cases hfind : ds.find? (fun d =>
          decide (d.start ≤ (((ts[i]!).start + (ts[i]!).endTime) / 2)) &&
          decide ((((ts[i]!).start + (ts[i]!).endTime) / 2) ≤ d.endTime)) <;>
        simp [hfind]
    · rw [hidx, assignOne_eq_match]
      cases hfind : ds.find? (fun d =>
          decide (d.start ≤ (((ts[i]!).start + (ts[i]!).endTime) / 2)) &&
          decide ((((ts[i]!).start + (ts[i]!).endTime) / 2) ≤ d.endTime)) <;>
        simp [hfind]
    · rw [hidx, assignOne_eq_match]
      cases hfind : ds.find? (fun d =>
          decide (d.start ≤ (((ts[i]!).start + (ts[i]!).endTime) / 2)) &&
          decide ((((ts[i]!).start + (ts[i]!).endTime) / 2) ≤ d.endTime)) <;>
        simp [hfind]
    · intro j hj hcont hbefore
      have hfind : ds.find? (fun d =>
          decide (d.start ≤ (((ts[i]!).start + (ts[i]!).endTime) / 2)) &&
          decide ((((ts[i]!).start + (ts[i]!).endTime) / 2) ≤ d.endTime)) =
          some ds[j] := by
        apply find?_first _ ds j hj
        · rw [← getElem!_pos ds j hj]
          simp only [Bool.and_eq_true, decide_eq_true_eq]
          exact hcont
        · intro k hk hkj
          have hb := hbefore k hkj
          rw [getElem!_pos ds k hk] at hb
          rw [Bool.eq_false_iff]
          simp only [ne_eq, Bool.and_eq_true, decide_eq_true_eq]
          exact fun hcon => hb hcon
      rw [hidx, assignOne_eq_match]
      simp only [hfind]
      rw [getElem!_pos ds j hj]
    · intro hnone
      have hfind : ds.find? (fun d =>
          decide (d.start ≤ (((ts[i]!).start + (ts[i]!).endTime) / 2)) &&
          decide ((((ts[i]!).start + (ts[i]!).endTime) / 2) ≤ d.endTime)) =
          none := by
        rw [List.find?_eq_none]
        intro d hd
        obtain ⟨j, hj, hdj⟩ := List.getElem_of_mem hd
        subst hdj
        have hnj := hnone j hj
        rw [getElem!_pos ds j hj] at hnj
        simp only [Bool.and_eq_true, decide_eq_true_eq]
        exact fun hcon => hnj hcon
      rw [hidx, assignOne_eq_match]
      simp only [hfind]

/-- Witness for C6, the spec's boundary example: spans
`[{0,5,"A"}, {5,10,"B"}]` and segment `{start: 4, end: 6}` (midpoint 5):
the first span's inclusive range contains 5, so the speaker is `"A"`. -/
theorem assign_speakers_first_match_witness :
    (0 : ℕ) < 1 ∧ (0 : ℕ) < 2 ∧
    ((assign_speakers [⟨4, 6, "x", none, none⟩] [⟨0, 5, "A"⟩, ⟨5, 10, "B"⟩])[0]!).speaker
      = some "A" := by
  have h := assign_speakers_first_match [⟨4, 6, "x", none, none⟩]
    [⟨0, 5, "A"⟩, ⟨5, 10, "B"⟩] 0 (by decide)
  refine ⟨by decide, by decide, ?_⟩
  have hs := h.2.2.2.2.1 0 (by decide) (by norm_num) (fun k hk => by omega)
  simpa using hs

/-! ## C8 -/

theorem pyInt_intCast (k : ℤ) : pyInt (k : ℚ) = k := by
  unfold pyInt
  split
  · rw [← Int.cast_neg, Int.floor_intCast, neg_neg]
  · exact Int.floor_intCast k

theorem pyInt_of_nonneg (q : ℚ) (h : 0 ≤ q) : pyInt q = ⌊q⌋ := by
  unfold pyInt
  rw [if_neg (by exact not_lt.mpr h)]

theorem pyMod_nonneg (a b : ℚ) (hb : 0 < b) : 0 ≤ pyMod a b := by
  unfold pyMod
  have h1 : (⌊a / b⌋ : ℚ) ≤ a / b := Int.floor_le _
  have h2 : b * (⌊a / b⌋ : ℚ) ≤ b * (a / b) :=
    mul_le_mul_of_nonneg_left h1 (le_of_lt hb)
  rw [mul_div_cancel₀ a (ne_of_gt hb)] at h2
  linarith

/-- C8 counterexample: the claim's `millis = round((s - floor(s)) * 1000)`
fails on the code at `s = 1.0009`: the source computes
`int((s - int(s)) * 1000)`, which truncates `0.9` to `0`, while rounding
gives `1`. -/
theorem srt_millis_not_rounded :
    (_seconds_to_subriptime (10009 / 10000)).2.2.2 ≠
      round (((10009 / 10000 : ℚ) - ⌊(10009 / 10000 : ℚ)⌋) * 1000) := by
  have hl : _seconds_to_subriptime (10009 / 10000) = (0, 0, 1, 0) := by
    unfold _seconds_to_subriptime pyInt pyMod pyFloorDiv
    norm_num
  have hr : round (((10009 / 10000 : ℚ) - ⌊(10009 / 10000 : ℚ)⌋) * 1000) = 1 := by
    rw [round_eq]
    norm_num
  rw [hl, hr]
  decide

/-- C8 (amended): for nonnegative seconds the SRT timecode fields are
`hours = floor(s/3600)`, `minutes = floor((s%3600)/60)`,
`seconds = floor(s%60)` and `millis = floor((s - floor(s)) * 1000)`
(truncated, not rounded); and encoding the single segment
`{start: 0, end: 1.5, text: "Hi", speaker: null}` yields index `1`,
timecodes `00:00:00,000 --> 00:00:01,500` and text `Hi`. -/
theorem seconds_to_subriptime_fields (s : ℚ) (hs : 0 ≤ s) :
    _seconds_to_subriptime s =
      (⌊s / 3600⌋, ⌊pyMod s 3600 / 60⌋, ⌊pyMod s 60⌋, ⌊(s - ⌊s⌋) * 1000⌋) ∧
    generate_srt [⟨0, 3 / 2, "Hi", none, none⟩] =
      "1\n00:00:00,000 --> 00:00:01,500\nHi\n" := by
  constructor
  · unfold _seconds_to_subriptime pyFloorDiv
    rw [pyInt_intCast, pyInt_intCast,
      pyInt_of_nonneg _ (pyMod_nonneg s 60 (by norm_num)),
      pyInt_of_nonneg s hs,
      pyInt_of_nonneg _ (by
        have h1 : (⌊s⌋ : ℚ) ≤ s := Int.floor_le s
        nlinarith)]
  · have h32 : _seconds_to_subriptime (3 / 2) = (0, 0, 1, 500) := by
      unfold _seconds_to_subriptime pyInt pyMod pyFloorDiv
      norm_num
    have h0 : _seconds_to_subriptime 0 = (0, 0, 0, 0) := by
      unfold _seconds_to_subriptime pyInt pyMod pyFloorDiv
      norm_num
    have hitem : generate_srt [⟨0, 3 / 2, "Hi", none, none⟩] =
        srtItemText 1 ⟨0, 3 / 2, "Hi", none, none⟩ := rfl
    rw [hitem]
    unfold srtItemText
    dsimp only
    rw [h32, h0]
    rfl

/-- Witness for C8 at `s = 1.5`: the hypothesis `0 ≤ s` holds and the
theorem's conclusion is instantiated there. -/
theorem seconds_to_subriptime_fields_witness :
    (0 : ℚ) ≤ 3 / 2 ∧
    (_seconds_to_subriptime (3 / 2) =
      (⌊(3 / 2 : ℚ) / 3600⌋, ⌊pyMod (3 / 2) 3600 / 60⌋, ⌊pyMod (3 / 2) 60⌋,
        ⌊((3 / 2 : ℚ) - ⌊(3 / 2 : ℚ)⌋) * 1000⌋) ∧
     generate_srt [⟨0, 3 / 2, "Hi", none, none⟩] =
      "1\n00:00:00,000 --> 00:00:01,500\nHi\n") :=
  ⟨by norm_num, seconds_to_subriptime_fields (3 / 2) (by norm_num)⟩

/-! ## C9 -/

/-- C9: the Name field of an ASS `Dialogue:` line.  For a segment whose
speaker is unset the code emits the literal `"None"` — not `"Default"` as
the claim states: every segment dict in this repository has an explicit
`speaker` key (set to `None` by the transcription stage when unknown), so
`str(seg.get('speaker', 'Default'))` evaluates `str(None)`.  With a set
speaker the Name field is the speaker, and newlines in the text become the
ASS line-break marker `\N`, after the fixed header. -/
theorem generate_ass_name_field :
    generate_ass [⟨0, 1, "Hi", none, none⟩] =
      assHeader ++ "Dialogue: 0,0:00:00.00,0:00:01.00,Default,None,0,0,0,,Hi" ∧
    generate_ass [⟨0, 1, "a\nb", none, some "S1"⟩] =
      assHeader ++ "Dialogue: 0,0:00:00.00,0:00:01.00,Default,S1,0,0,0,,a\\Nb" := by
  have h0 : _seconds_to_ass_time 0 = "0:00:00.00" := by
    unfold _seconds_to_ass_time pyInt pyMod pyFloorDiv
    norm_num [round_eq, padNum]
    rfl
  have h1 : _seconds_to_ass_time 1 = "0:00:01.00" := by
    unfold _seconds_to_ass_time pyInt pyMod pyFloorDiv
    norm_num [round_eq, padNum]
    rfl
  constructor <;>
  · unfold generate_ass
    dsimp only [List.map_cons, List.map_nil]
    rw [h0, h1]
    rfl

/-! ## Lemmas about stripping, splitting and joining -/

theorem head?_dropWhile_false (p : Char → Bool) (l : List Char) (c : Char)
    (h : (l.dropWhile p).head? = some c) : p c = false := by
  induction l with
  | nil => simp at h
  | cons a t ih =>
    rw [List.dropWhile_cons] at h
    by_cases hpa : p a = true
    · rw [if_pos hpa] at h
      exact ih h
    · rw [if_neg hpa, List.head?_cons, Option.some_inj] at h
      subst h
      exact Bool.eq_false_iff.mpr hpa

theorem getLast?_dropWhile (p : Char → Bool) (l : List Char)
    (h : l.dropWhile p ≠ []) : (l.dropWhile p).getLast? = l.getLast? := by
  induction l with
  | nil => simp at h
  | cons a t ih =>
    rw [List.dropWhile_cons] at h ⊢
    by_cases hpa : p a = true
    · rw [if_pos hpa] at h ⊢
      rw [ih h]
      cases t with
      | nil => simp at h
      | cons b t2 => rw [List.getLast?_cons_cons]
    · rw [if_neg hpa]

theorem pyStrip_head (l : List Char) (c : Char)
    (h : (pyStrip l).head? = some c) : pySpace c = false := by
  unfold pyStrip at h
  rw [List.head?_reverse] at h
  have hne : (lstrip l).reverse.dropWhile pySpace ≠ [] := by
    intro he
    rw [he] at h
    simp at h
  rw [getLast?_dropWhile pySpace (lstrip l).reverse hne,
    List.getLast?_reverse] at h
  exact head?_dropWhile_false pySpace l c h

theorem pyStrip_last (l : List Char) (c : Char)
    (h : (pyStrip l).getLast? = some c) : pySpace c = false := by
  unfold pyStrip at h
  rw [List.getLast?_reverse] at h
  exact head?_dropWhile_false pySpace (lstrip l).reverse c h

theorem dropWhile_eq_self_of_head (p : Char → Bool) (l : List Char)
    (h : ∀ c, l.head? = some c → p c = false) : l.dropWhile p = l := by
  cases l with
  | nil => rfl
  | cons a t =>
    rw [List.dropWhile_cons, if_neg]
    simp [h a rfl]

theorem pyStrip_idem (l : List Char) : pyStrip (pyStrip l) = pyStrip l := by
  have h1 : List.dropWhile pySpace (pyStrip l) = pyStrip l :=
    dropWhile_eq_self_of_head _ _ (fun c hc => pyStrip_head l c hc)
  have h2 : List.dropWhile pySpace (pyStrip l).reverse = (pyStrip l).reverse :=
    dropWhile_eq_self_of_head _ _ (fun c hc => by
      rw [List.head?_reverse] at hc
      exact pyStrip_last l c hc)
  show ((List.dropWhile pySpace (pyStrip l)).reverse.dropWhile pySpace).reverse
      = pyStrip l
  rw [h1, h2, List.reverse_reverse]

theorem splitOnChar_ne_nil (sep : Char) (l : List Char) :
    splitOnChar sep l ≠ [] := by
  cases l with
  | nil => simp [splitOnChar]
  | cons c rest =>
    by_cases h : c = sep
    · simp [splitOnChar, h]
    · cases hsp : splitOnChar sep rest <;> simp [splitOnChar, h, hsp]

theorem splitOnChar_cons_of_ne (sep c : Char) (rest : List Char)
    (h : c ≠ sep) :
    ∃ w ws, splitOnChar sep rest = w :: ws ∧
      splitOnChar sep (c :: rest) = (c :: w) :: ws := by
  cases hsp : splitOnChar sep rest with
  | nil => exact absurd hsp (splitOnChar_ne_nil sep rest)
  | cons w ws => exact ⟨w, ws, rfl, by simp [splitOnChar, h, hsp]⟩

theorem joinSep_splitOnChar (sep : Char) (l : List Char) :
    joinSep [sep] (splitOnChar sep l) = l := by
  induction l with
  | nil => rfl
  | cons c rest ih =>
    by_cases h : c = sep
    · subst h
      have hstep : splitOnChar c (c :: rest) = [] :: splitOnChar c rest := by
        simp [splitOnChar]
      rw [hstep]
      cases hsp : splitOnChar c rest with
      | nil => exact absurd hsp (splitOnChar_ne_nil c rest)
      | cons w ws =>
        rw [hsp] at ih
        rw [joinSep]
        simp only [List.nil_append, List.singleton_append]
        rw [ih]
    · obtain ⟨w, ws, hw, hstep⟩ := splitOnChar_cons_of_ne sep c rest h
      rw [hstep]
      rw [hw] at ih
      cases ws with
      | nil =>
        rw [joinSep]
        rw [joinSep] at ih
        rw [ih]
      | cons w2 ws2 =>
        rw [joinSep]
        rw [joinSep] at ih
        simp only [List.cons_append, List.append_assoc] at ih ⊢
        rw [ih]

theorem two_le_splitOnChar_length (sep : Char) (l : List Char)
    (h : sep ∈ l) : 2 ≤ (splitOnChar sep l).length := by
  induction l with
  | nil => simp at h
  | cons c rest ih =>
    by_cases hc : c = sep
    · subst hc
      have hstep : splitOnChar c (c :: rest) = [] :: splitOnChar c rest := by
        simp [splitOnChar]
      rw [hstep]
      have := splitOnChar_ne_nil c rest
      cases hsp : splitOnChar c rest with
      | nil => exact absurd hsp this
      | cons w ws => simp
    · have hmem : sep ∈ rest := by
        cases List.mem_cons.mp h with
        | inl h1 => exact absurd h1.symm hc
        | inr h2 => exact h2
      obtain ⟨w, ws, hw, hstep⟩ := splitOnChar_cons_of_ne sep c rest hc
      rw [hstep]
      have := ih hmem
      rw [hw] at this
      simpa using this

theorem splitOnChar_getLast_ne_nil (sep : Char) :
    ∀ (l : List Char), l ≠ [] →
    (∀ c, l.getLast? = some c → c ≠ sep) →
    ∀ w, (splitOnChar sep l).getLast? = some w → w ≠ []
  | [], h, _, _, _ => absurd rfl h
  | [c], _, hlast, w, hw => by
    have hc : c ≠ sep := hlast c (by simp)
    have hstep : splitOnChar sep [c] = [[c]] := by
      simp [splitOnChar, hc]
    rw [hstep] at hw
    simp only [List.getLast?_cons, List.getLast?_nil, Option.getD_none,
      Option.some_inj] at hw
    subst hw
    simp
  | c :: c2 :: rest2, _, hlast, w, hw => by
    have hlast2 : ∀ ch, (c2 :: rest2).getLast? = some ch → ch ≠ sep := by
      intro ch hch
      exact hlast ch (by rw [List.getLast?_cons_cons]; exact hch)
    by_cases h : c = sep
    · subst h
      have hstep : splitOnChar c (c :: c2 :: rest2) =
          [] :: splitOnChar c (c2 :: rest2) := by
        simp [splitOnChar]
      rw [hstep] at hw
      cases hsp : splitOnChar c (c2 :: rest2) with
      | nil => exact absurd hsp (splitOnChar_ne_nil _ _)
      | cons w1 ws1 =>
        rw [hsp, List.getLast?_cons_cons] at hw
        exact splitOnChar_getLast_ne_nil c (c2 :: rest2) (by simp) hlast2 w
          (by rw [hsp]; exact hw)
    · obtain ⟨w1, ws1, hw1, hstep⟩ :=
        splitOnChar_cons_of_ne sep c (c2 :: rest2) h
      rw [hstep] at hw
      cases ws1 with
      | nil =>
        simp only [List.getLast?_cons, List.getLast?_nil, Option.getD_none,
          Option.some_inj] at hw
        subst hw
        simp
      | cons w2 ws2 =>
        rw [List.getLast?_cons_cons] at hw
        apply splitOnChar_getLast_ne_nil sep (c2 :: rest2) (by simp) hlast2 w
        rw [hw1, List.getLast?_cons_cons]
        exact hw

theorem joinSep_append (sep : List Char) :
    ∀ (xs ys : List (List Char)), xs ≠ [] → ys ≠ [] →
    joinSep sep (xs ++ ys) = joinSep sep xs ++ sep ++ joinSep sep ys
  | [], _, hxs, _ => absurd rfl hxs
  | [x], y :: yt, _, _ => by
    rw [List.singleton_append, joinSep]
    rfl
  | x :: x2 :: xt, y :: yt, _, hys => by
    have ih := joinSep_append sep (x2 :: xt) (y :: yt) (by simp) hys
    simp only [List.cons_append] at ih ⊢
    rw [joinSep]
    rw [ih]
    rw [show joinSep sep (x :: x2 :: xt) = x ++ sep ++ joinSep sep (x2 :: xt)
      from rfl]
    simp [List.append_assoc]

theorem joinSep_head_len (sep : List Char) (w : List Char)
    (ws : List (List Char)) : w.length ≤ (joinSep sep (w :: ws)).length := by
  cases ws with
  | nil => rw [joinSep]
  | cons w2 ws2 =>
    rw [joinSep]
    simp [List.length_append]

theorem joinSep_space_last_ne_nil (ws : List (List Char)) (hne : ws ≠ [])
    (hlast : ∀ w, ws.getLast? = some w → w ≠ []) :
    joinSep [' '] ws ≠ [] := by
  cases ws with
  | nil => exact absurd rfl hne
  | cons w wt =>
    cases wt with
    | nil =>
      rw [joinSep]
      exact hlast w (by simp)
    | cons w2 wt2 =>
      rw [joinSep]
      simp

/-- Core facts about the word-midpoint split of a stripped text containing
a space: both joined halves are nonempty and their lengths sum (with the
dropped separator) to the trimmed length. -/
theorem refine_split_core (l : List Char) (hsp : ' ' ∈ pyStrip l) :
    1 ≤ (joinSep [' '] ((splitOnChar ' ' (pyStrip l)).take
      ((splitOnChar ' ' (pyStrip l)).length / 2))).length ∧
    1 ≤ (joinSep [' '] ((splitOnChar ' ' (pyStrip l)).drop
      ((splitOnChar ' ' (pyStrip l)).length / 2))).length ∧
    (joinSep [' '] ((splitOnChar ' ' (pyStrip l)).take
        ((splitOnChar ' ' (pyStrip l)).length / 2))).length + 1 +
      (joinSep [' '] ((splitOnChar ' ' (pyStrip l)).drop
        ((splitOnChar ' ' (pyStrip l)).length / 2))).length =
      (pyStrip l).length := by
  have hRound : joinSep [' '] (splitOnChar ' ' (pyStrip l)) = pyStrip l :=
    joinSep_splitOnChar ' ' (pyStrip l)
  have h2len : 2 ≤ (splitOnChar ' ' (pyStrip l)).length :=
    two_le_splitOnChar_length _ _ hsp
  have hm1 : 1 ≤ (splitOnChar ' ' (pyStrip l)).length / 2 := by omega
  have hmlt : (splitOnChar ' ' (pyStrip l)).length / 2 <
      (splitOnChar ' ' (pyStrip l)).length := by omega
  have htake_ne : (splitOnChar ' ' (pyStrip l)).take
      ((splitOnChar ' ' (pyStrip l)).length / 2) ≠ [] := by
    rw [← List.length_pos, List.length_take]
    omega
  have hdrop_ne : (splitOnChar ' ' (pyStrip l)).drop
      ((splitOnChar ' ' (pyStrip l)).length / 2) ≠ [] := by
    rw [← List.length_pos, List.length_drop]
    omega
  have happ : pyStrip l =
      joinSep [' '] ((splitOnChar ' ' (pyStrip l)).take
        ((splitOnChar ' ' (pyStrip l)).length / 2)) ++ [' '] ++
      joinSep [' '] ((splitOnChar ' ' (pyStrip l)).drop
        ((splitOnChar ' ' (pyStrip l)).length / 2)) := by
    conv_lhs =>
      rw [← hRound,
        ← List.take_append_drop ((splitOnChar ' ' (pyStrip l)).length / 2)
          (splitOnChar ' ' (pyStrip l))]
    exact joinSep_append [' '] _ _ htake_ne hdrop_ne
  have hsum : (joinSep [' '] ((splitOnChar ' ' (pyStrip l)).take
        ((splitOnChar ' ' (pyStrip l)).length / 2))).length + 1 +
      (joinSep [' '] ((splitOnChar ' ' (pyStrip l)).drop
        ((splitOnChar ' ' (pyStrip l)).length / 2))).length =
      (pyStrip l).length := by
    conv_rhs => rw [happ]
    simp [List.length_append]
    omega
  have hs_ne : pyStrip l ≠ [] := List.ne_nil_of_mem hsp
  -- the trimmed text starts with a non-space character
  obtain ⟨c0, s0, hcons⟩ : ∃ c0 s0, pyStrip l = c0 :: s0 := by
    cases hps : pyStrip l with
    | nil => exact absurd hps hs_ne
    | cons a b => exact ⟨a, b, rfl⟩
  have hc0 : c0 ≠ ' ' := by
    have hsp0 : pySpace c0 = false :=
      pyStrip_head l c0 (by rw [hcons]; rfl)
    intro he
    rw [he] at hsp0
    simp [pySpace] at hsp0
  obtain ⟨w, ws0, hws0, hsplit⟩ := splitOnChar_cons_of_ne ' ' c0 s0 hc0
  have hsplit2 : splitOnChar ' ' (pyStrip l) = (c0 :: w) :: ws0 := by
    rw [hcons]
    exact hsplit
  have htake1 : 1 ≤ (joinSep [' '] ((splitOnChar ' ' (pyStrip l)).take
      ((splitOnChar ' ' (pyStrip l)).length / 2))).length := by
    obtain ⟨k, hk⟩ : ∃ k, (splitOnChar ' ' (pyStrip l)).length / 2 = k + 1 :=
      ⟨(splitOnChar ' ' (pyStrip l)).length / 2 - 1, by omega⟩
    rw [hk, hsplit2, List.take_succ_cons]
    calc 1 ≤ (c0 :: w).length := by simp
    _ ≤ _ := joinSep_head_len [' '] (c0 :: w) (ws0.take k)
  have hlast_s : ∀ cL, (pyStrip l).getLast? = some cL → cL ≠ ' ' := by
    intro cL hcl he
    have hsp0 : pySpace cL = false := pyStrip_last l cL hcl
    rw [he] at hsp0
    simp [pySpace] at hsp0
  have hlast_drop : ∀ w0, ((splitOnChar ' ' (pyStrip l)).drop
      ((splitOnChar ' ' (pyStrip l)).length / 2)).getLast? = some w0 →
      w0 ≠ [] := by
    intro w0 hw0
    apply splitOnChar_getLast_ne_nil ' ' (pyStrip l) hs_ne hlast_s w0
    have hgl : (splitOnChar ' ' (pyStrip l)).getLast? =
        ((splitOnChar ' ' (pyStrip l)).drop
          ((splitOnChar ' ' (pyStrip l)).length / 2)).getLast? := by
      conv_lhs =>
        rw [← List.take_append_drop
          ((splitOnChar ' ' (pyStrip l)).length / 2)
          (splitOnChar ' ' (pyStrip l))]
      exact List.getLast?_append_of_ne_nil _ hdrop_ne
    rw [hgl]
    exact hw0
  have hdrop1 : 1 ≤ (joinSep [' '] ((splitOnChar ' ' (pyStrip l)).drop
      ((splitOnChar ' ' (pyStrip l)).length / 2))).length := by
    have hne := joinSep_space_last_ne_nil _ hdrop_ne hlast_drop
    have := List.length_pos.mpr hne
    omega
  exact ⟨htake1, hdrop1, hsum⟩

theorem refineOne_eq_ite (max_cps : ℚ) (seg : Segment) :
    refineOne max_cps seg =
      if 0 < seg.endTime - seg.start ∧
          max_cps < ((pyStrip seg.text.data).length : ℚ) /
            (seg.endTime - seg.start) ∧ ' ' ∈ pyStrip seg.text.data then
        [⟨seg.start,
          seg.start + (seg.endTime - seg.start) *
            (((joinSep [' '] ((splitOnChar ' ' (pyStrip seg.text.data)).take
              ((splitOnChar ' ' (pyStrip seg.text.data)).length / 2))).length : ℚ)
              / ((pyStrip seg.text.data).length : ℚ)),
          ⟨joinSep [' '] ((splitOnChar ' ' (pyStrip seg.text.data)).take
            ((splitOnChar ' ' (pyStrip seg.text.data)).length / 2))⟩,
          some (seg.original.getD ""), seg.speaker⟩,
         ⟨seg.start + (seg.endTime - seg.start) *
            (((joinSep [' '] ((splitOnChar ' ' (pyStrip seg.text.data)).take
              ((splitOnChar ' ' (pyStrip seg.text.data)).length / 2))).length : ℚ)
              / ((pyStrip seg.text.data).length : ℚ)),
          seg.endTime,
          ⟨joinSep [' '] ((splitOnChar ' ' (pyStrip seg.text.data)).drop
            ((splitOnChar ' ' (pyStrip seg.text.data)).length / 2))⟩,
          some (seg.original.getD ""), seg.speaker⟩]
      else [{ seg with text := ⟨pyStrip seg.text.data⟩ }] := rfl

/-! ## C5 -/

/-- C5: per-segment refinement behaviour.  `refine_segments` concatenates
the per-segment results (no segment is dropped: each contributes a
nonempty list).  When the duration is positive, the characters-per-second
of the trimmed text exceeds `max_cps` and the trimmed text contains a
space, the segment is replaced by exactly two segments: the first spans
`[start, t]`, the second `[t, end]` with
`t = start + duration * (len(text1) / len(text))` where `text1` joins the
first `len(words) // 2` words — they cover the original range with no gap
or overlap and both satisfy `end > start`.  Otherwise the segment is kept
unsplit with trimmed text. -/
theorem refine_segments_spec (max_cps : ℚ) (seg : Segment)
    (segs : List Segment) :
    refine_segments segs max_cps = segs.flatMap (refineOne max_cps) ∧
    refineOne max_cps seg ≠ [] ∧
    ((0 < seg.endTime - seg.start ∧
        max_cps < ((pyStrip seg.text.data).length : ℚ) /
          (seg.endTime - seg.start) ∧
        ' ' ∈ pyStrip seg.text.data) →
      ∃ t1 t2 : List Char,
        t1 = joinSep [' '] ((splitOnChar ' ' (pyStrip seg.text.data)).take
          ((splitOnChar ' ' (pyStrip seg.text.data)).length / 2)) ∧
        t2 = joinSep [' '] ((splitOnChar ' ' (pyStrip seg.text.data)).drop
          ((splitOnChar ' ' (pyStrip seg.text.data)).length / 2)) ∧
        refineOne max_cps seg =
          [⟨seg.start,
            seg.start + (seg.endTime - seg.start) *
              ((t1.length : ℚ) / ((pyStrip seg.text.data).length : ℚ)),
            ⟨t1⟩, some (seg.original.getD ""), seg.speaker⟩,
           ⟨seg.start + (seg.endTime - seg.start) *
              ((t1.length : ℚ) / ((pyStrip seg.text.data).length : ℚ)),
            seg.endTime, ⟨t2⟩, some (seg.original.getD ""), seg.speaker⟩] ∧
        seg.start < seg.start + (seg.endTime - seg.start) *
          ((t1.length : ℚ) / ((pyStrip seg.text.data).length : ℚ)) ∧
        seg.start + (seg.endTime - seg.start) *
          ((t1.length : ℚ) / ((pyStrip seg.text.data).length : ℚ)) <
          seg.endTime) ∧
    (¬(0 < seg.endTime - seg.start ∧
        max_cps < ((pyStrip seg.text.data).length : ℚ) /
          (seg.endTime - seg.start) ∧
        ' ' ∈ pyStrip seg.text.data) →
      refineOne max_cps seg = [{ seg with text := ⟨pyStrip seg.text.data⟩ }]) := by
  refine ⟨rfl, ?_, ?_, ?_⟩
  · rw [refineOne_eq_ite]
    split <;> simp
  · intro h
    obtain ⟨ht1, ht2, hsum⟩ := refine_split_core seg.text.data h.2.2
    refine ⟨_, _, rfl, rfl, ?_, ?_, ?_⟩
    · rw [refineOne_eq_ite, if_pos h]
    · have hLpos : (0 : ℚ) < ((pyStrip seg.text.data).length : ℚ) := by
        exact_mod_cast (by omega : 0 < (pyStrip seg.text.data).length)
      have ht1q : (0 : ℚ) <
          ((joinSep [' '] ((splitOnChar ' ' (pyStrip seg.text.data)).take
            ((splitOnChar ' ' (pyStrip seg.text.data)).length / 2))).length : ℚ) := by
        exact_mod_cast (by omega : 0 < (joinSep [' ']
          ((splitOnChar ' ' (pyStrip seg.text.data)).take
            ((splitOnChar ' ' (pyStrip seg.text.data)).length / 2))).length)
      have := mul_pos h.1 (div_pos ht1q hLpos)
      linarith
    · have hLpos : (0 : ℚ) < ((pyStrip seg.text.data).length : ℚ) := by
        exact_mod_cast (by omega : 0 < (pyStrip seg.text.data).length)
      have hltq : ((joinSep [' '] ((splitOnChar ' ' (pyStrip seg.text.data)).take
            ((splitOnChar ' ' (pyStrip seg.text.data)).length / 2))).length : ℚ) <
          ((pyStrip seg.text.data).length : ℚ) := by
        exact_mod_cast (by omega : (joinSep [' ']
          ((splitOnChar ' ' (pyStrip seg.text.data)).take
            ((splitOnChar ' ' (pyStrip seg.text.data)).length / 2))).length <
          (pyStrip seg.text.data).length)
      have hmul := mul_lt_mul_of_pos_left ((div_lt_one hLpos).mpr hltq) h.1
      rw [mul_one] at hmul
      linarith
  · intro h
    rw [refineOne_eq_ite, if_neg h]

/-- Witness for C5: a 1-second segment whose trimmed text has 25
characters (cps 25 > 20) and spaces; the conditions hold and the split
described by the theorem is produced. -/
theorem refine_segments_spec_witness :
    ((0 : ℚ) < 1 - 0 ∧
      (20 : ℚ) <
        ((pyStrip ("this is a long text of 25" : String).data).length : ℚ) /
          (1 - 0) ∧
      ' ' ∈ pyStrip ("this is a long text of 25" : String).data) ∧
    (∃ t1 t2 : List Char,
      t1 = joinSep [' ']
        ((splitOnChar ' '
          (pyStrip ("this is a long text of 25" : String).data)).take
          ((splitOnChar ' '
            (pyStrip ("this is a long text of 25" : String).data)).length / 2)) ∧
      t2 = joinSep [' ']
        ((splitOnChar ' '
          (pyStrip ("this is a long text of 25" : String).data)).drop
          ((splitOnChar ' '
            (pyStrip ("this is a long text of 25" : String).data)).length / 2)) ∧
      refineOne 20 ⟨0, 1, "this is a long text of 25", some "orig", some "S"⟩ =
        [⟨0, 0 + (1 - 0) * ((t1.length : ℚ) /
            ((pyStrip ("this is a long text of 25" : String).data).length : ℚ)),
          ⟨t1⟩, some "orig", some "S"⟩,
         ⟨0 + (1 - 0) * ((t1.length : ℚ) /
            ((pyStrip ("this is a long text of 25" : String).data).length : ℚ)),
          1, ⟨t2⟩, some "orig", some "S"⟩] ∧
      (0 : ℚ) < 0 + (1 - 0) * ((t1.length : ℚ) /
        ((pyStrip ("this is a long text of 25" : String).data).length : ℚ)) ∧
      0 + (1 - 0) * ((t1.length : ℚ) /
        ((pyStrip ("this is a long text of 25" : String).data).length : ℚ)) <
        1) := by
  have hlen : (pyStrip ("this is a long text of 25" : String).data).length = 25 :=
    rfl
  have hyp : (0 : ℚ) < 1 - 0 ∧
      (20 : ℚ) <
        ((pyStrip ("this is a long text of 25" : String).data).length : ℚ) /
          (1 - 0) ∧
      ' ' ∈ pyStrip ("this is a long text of 25" : String).data := by
    refine ⟨by norm_num, ?_, by decide⟩
    rw [hlen]
    norm_num
  exact ⟨hyp, (refine_segments_spec 20
    ⟨0, 1, "this is a long text of 25", some "orig", some "S"⟩ []).2.2.1 hyp⟩

/-! ## C10 -/

/-- C10: whenever refinement splits a segment (positive duration, cps over
the threshold, and a space in the trimmed text), both resulting halves
have nonempty text: the split branch's word list has at least two words
whose first and last are nonempty, so both joined halves are nonempty. -/
theorem refine_split_halves_nonempty (max_cps : ℚ) (seg : Segment)
    (h1 : 0 < seg.endTime - seg.start)
    (h2 : max_cps < ((pyStrip seg.text.data).length : ℚ) /
      (seg.endTime - seg.start))
    (h3 : ' ' ∈ pyStrip seg.text.data) :
    ∃ s1 s2 : Segment, refineOne max_cps seg = [s1, s2] ∧
      s1.text ≠ "" ∧ s2.text ≠ "" := by
  obtain ⟨ht1, ht2, hsum⟩ := refine_split_core seg.text.data h3
  refine ⟨_, _, by rw [refineOne_eq_ite, if_pos ⟨h1, h2, h3⟩], ?_, ?_⟩
  · intro he
    have hd : (joinSep [' '] ((splitOnChar ' ' (pyStrip seg.text.data)).take
        ((splitOnChar ' ' (pyStrip seg.text.data)).length / 2))) =
        ("" : String).data := congrArg String.data he
    rw [show ("" : String).data = [] from rfl] at hd
    rw [hd] at ht1
    simp at ht1
  · intro he
    have hd : (joinSep [' '] ((splitOnChar ' ' (pyStrip seg.text.data)).drop
        ((splitOnChar ' ' (pyStrip seg.text.data)).length / 2))) =
        ("" : String).data := congrArg String.data he
    rw [show ("" : String).data = [] from rfl] at hd
    rw [hd] at ht2
    simp at ht2

/-- Witness for C10 at the same concrete splitting segment. -/
theorem refine_split_halves_nonempty_witness :
    ((0 : ℚ) < 1 - 0 ∧
      (20 : ℚ) <
        ((pyStrip ("this is a long text of 25" : String).data).length : ℚ) /
          (1 - 0) ∧
      ' ' ∈ pyStrip ("this is a long text of 25" : String).data) ∧
    (∃ s1 s2 : Segment,
      refineOne 20 ⟨0, 1, "this is a long text of 25", none, none⟩ = [s1, s2] ∧
      s1.text ≠ "" ∧ s2.text ≠ "") := by
  have hlen : (pyStrip ("this is a long text of 25" : String).data).length = 25 :=
    rfl
  have hyp2 : (20 : ℚ) <
      ((pyStrip ("this is a long text of 25" : String).data).length : ℚ) /
        (1 - 0) := by
    rw [hlen]
    norm_num
  exact ⟨⟨by norm_num, hyp2, by decide⟩,
    refine_split_halves_nonempty 20
      ⟨0, 1, "this is a long text of 25", none, none⟩
      (by norm_num) hyp2 (by decide)⟩

/-! ## Lemmas for the cleaner's fixed-point behaviour -/

theorem labelAtStart_eq (s : List Char) :
    labelAtStart s =
      (!(s.takeWhile wordChar).isEmpty &&
        match s.drop (s.takeWhile wordChar).length with
        | c :: _ => c = ':'
        | [] => false) := rfl

theorem step5_eq (s : List Char) :
    step5 s =
      if s.takeWhile wordChar ≠ [] then
        match s.drop (s.takeWhile wordChar).length with
        | c :: rest => if c = ':' then rest.dropWhile pySpace else s
        | [] => s
      else s := rfl

theorem matchCI_label_structure :
    ∀ (kw s : List Char),
    (∀ p ∈ kw, wordChar p = true ∧ wordChar (upperA p) = true) →
    matchCI (kw ++ [':']) s = true →
    ∃ w rest, s = w ++ ':' :: rest ∧ w.length = kw.length ∧
      ∀ c ∈ w, wordChar c = true := by
  intro kw
  induction kw with
  | nil =>
    intro s _ hm
    cases s with
    | nil => simp [matchCI] at hm
    | cons c cs =>
      simp only [List.nil_append, matchCI, Bool.and_eq_true, Bool.or_eq_true,
        decide_eq_true_eq] at hm
      have hc : c = ':' := by
        rcases hm.1 with h | h
        · exact h
        · rw [h]
          rfl
      exact ⟨[], cs, by rw [hc, List.nil_append], rfl, by simp⟩
  | cons p ps ih =>
    intro s hall hm
    cases s with
    | nil => simp [matchCI] at hm
    | cons c cs =>
      rw [List.cons_append] at hm
      simp only [matchCI, Bool.and_eq_true, Bool.or_eq_true,
        decide_eq_true_eq] at hm
      obtain ⟨hc, hrest⟩ := hm
      obtain ⟨w, rest, hs, hlen, hw⟩ :=
        ih cs (fun q hq => hall q (List.mem_cons_of_mem _ hq)) hrest
      have hcw : wordChar c = true := by
        rcases hc with h | h
        · rw [h]
          exact (hall p (by simp)).1
        · rw [h]
          exact (hall p (by simp)).2
      refine ⟨c :: w, rest, by rw [hs, List.cons_append], by simp [hlen], ?_⟩
      intro ch hch
      rcases List.mem_cons.mp hch with h | h
      · rw [h]
        exact hcw
      · exact hw ch h

theorem takeWhile_word_label (w rest : List Char)
    (hw : ∀ c ∈ w, wordChar c = true) :
    (w ++ ':' :: rest).takeWhile wordChar = w := by
  induction w with
  | nil =>
    rw [List.nil_append, List.takeWhile_cons]
    simp [wordChar]
  | cons c w2 ih =>
    rw [List.cons_append, List.takeWhile_cons, if_pos (hw c (by simp))]
    rw [ih (fun ch hch => hw ch (List.mem_cons_of_mem _ hch))]

theorem labelAtStart_of_label (w rest : List Char)
    (hw : ∀ c ∈ w, wordChar c = true) (hne : w ≠ []) :
    labelAtStart (w ++ ':' :: rest) = true := by
  rw [labelAtStart_eq, takeWhile_word_label w rest hw, List.drop_left]
  cases w with
  | nil => exact absurd rfl hne
  | cons c w2 => rfl

theorem matchLabel_labelAtStart (kws : List (List Char)) (s r : List Char)
    (hkws : ∀ kw ∈ kws, kw ≠ [] ∧
      ∀ p ∈ kw, wordChar p = true ∧ wordChar (upperA p) = true)
    (h : matchLabel kws s = some r) : labelAtStart s = true := by
  induction kws with
  | nil => simp [matchLabel] at h
  | cons kw kws2 ih =>
    rw [matchLabel] at h
    split at h
    · next hm =>
      obtain ⟨w, rest, hs, hlen, hword⟩ :=
        matchCI_label_structure kw s (hkws kw (by simp)).2 hm
      have hwne : w ≠ [] := by
        intro he
        rw [he] at hlen
        exact (hkws kw (by simp)).1 (List.eq_nil_of_length_eq_zero hlen.symm)
      rw [hs]
      exact labelAtStart_of_label w rest hword hwne
    · exact ih (fun k hk => hkws k (List.mem_cons_of_mem _ hk)) h

theorem kws1_wordlike : ∀ kw ∈ kws1, kw ≠ [] ∧
    ∀ p ∈ kw, wordChar p = true ∧ wordChar (upperA p) = true := by decide

theorem kws2_wordlike : ∀ kw ∈ kws2, kw ≠ [] ∧
    ∀ p ∈ kw, wordChar p = true ∧ wordChar (upperA p) = true := by decide

theorem sub1_noop (s : List Char) (h : labelAtStart s = false) :
    sub1 s = s := by
  unfold sub1
  cases hm : matchLabel kws1 s with
  | none => rfl
  | some r =>
    rw [matchLabel_labelAtStart kws1 s r kws1_wordlike hm] at h
    cases h

theorem sub2_noop (s : List Char) (h : labelAtStart s = false) :
    sub2 s = s := by
  unfold sub2
  cases hm : matchLabel kws2 s with
  | none => rfl
  | some r =>
    rw [matchLabel_labelAtStart kws2 s r kws2_wordlike hm] at h
    cases h

theorem step5_noop (s : List Char) (h : labelAtStart s = false) :
    step5 s = s := by
  rw [step5_eq]
  by_cases hrun : s.takeWhile wordChar = []
  · rw [if_neg (by simpa using hrun)]
  · rw [if_pos hrun]
    rw [labelAtStart_eq] at h
    have hne : (s.takeWhile wordChar).isEmpty = false := by
      cases hr : s.takeWhile wordChar with
      | nil => exact absurd hr hrun
      | cons a t => rfl
    rw [hne] at h
    simp only [Bool.not_false, Bool.true_and] at h
    cases hd : s.drop (s.takeWhile wordChar).length with
    | nil => rfl
    | cons c rest =>
      rw [hd] at h
      have hc : c ≠ ':' := by
        intro he
        rw [he] at h
        simp at h
      show (if c = ':' then rest.dropWhile pySpace else s) = s
      rw [if_neg hc]

theorem step4_noop (s : List Char) (h : s.contains '\n' = false) :
    step4 s = s := by
  unfold step4
  rw [if_neg]
  simpa using h

theorem cleanL_stripped (s : List Char) : pyStrip (cleanL s) = cleanL s := by
  unfold cleanL
  exact pyStrip_idem _

/-! ## C4 -/

/-- C4 counterexample: the cleaner is not idempotent.  On `"a: b: c"` the
final `^\w+:\s*` substitution strips one label per pass: the first pass
yields `"b: c"`, a second pass yields `"c"`. -/
theorem clean_not_idempotent :
    _clean_translation (_clean_translation "a: b: c") ≠
      _clean_translation "a: b: c" := by
  have h1 : _clean_translation "a: b: c" = "b: c" := rfl
  rw [h1]
  have h2 : _clean_translation "b: c" = "c" := rfl
  rw [h2]
  decide

/-- C4 (amended): the cleaner is idempotent on every input whose cleaned
form is a single line that does not itself begin with a `\w+:` label
(idempotence fails in general, see the counterexample): under these two
conditions every rewriting step of a second pass is the identity. -/
theorem clean_idempotent_amended (x : String)
    (h1 : labelAtStartS (_clean_translation x) = false)
    (h2 : (_clean_translation x).data.contains '\n' = false) :
    _clean_translation (_clean_translation x) = _clean_translation x := by
  have L1 : ∀ l : List Char, (String.mk l).data = l := fun _ => rfl
  have L2 : ∀ s : String, _clean_translation s = ⟨cleanL s.data⟩ :=
    fun _ => rfl
  have L3 : ∀ s : String, labelAtStartS s = labelAtStart s.data :=
    fun _ => rfl
  rw [L2 x, L3, L1] at h1
  rw [L2 x, L1] at h2
  have hy : pyStrip (cleanL x.data) = cleanL x.data := cleanL_stripped x.data
  have L4 : ∀ l : List Char, cleanL l =
      pyStrip (step5 (step4 (pyStrip (sub2 (pyStrip (sub1 (pyStrip l))))))) :=
    fun _ => rfl
  have key : cleanL (cleanL x.data) = cleanL x.data := by
    rw [L4 (cleanL x.data)]
    rw [hy, sub1_noop _ h1, hy, sub2_noop _ h1, hy, step4_noop _ h2,
      step5_noop _ h1, hy]
  rw [L2 x, L2 ⟨cleanL x.data⟩, L1, key]

/-- Witness for C4 at `x = "Translation: hello world"`: cleaning strips
the label, the result `"hello world"` is label-free and single-line, and
a second pass leaves it unchanged. -/
theorem clean_idempotent_amended_witness :
    labelAtStartS (_clean_translation "Translation: hello world") = false ∧
    (_clean_translation "Translation: hello world").data.contains '\n'
      = false ∧
    _clean_translation (_clean_translation "Translation: hello world") =
      _clean_translation "Translation: hello world" :=
  ⟨rfl, rfl, clean_idempotent_amended "Translation: hello world" rfl rfl⟩

end KotoSub
